import Mathlib

/-!
Verification development for the pcp metrics-agent fragments:
the Linux uptime proc-file reader (src/pmdas/linux/proc_uptime.c),
the statsd datagram parser interface (src/pmdas/statsd/src/parser-basic.h),
and the socket-statistics cluster enumeration
(src/pmdas/linux_sockets/cluster.h).

C doubles are modelled as exact rationals: every decimal literal the
two-number uptime format and the statsd line protocol can carry is
representable exactly, and none of the properties below depend on
binary rounding.
-/

/-! ## Character-level scanning primitives shared by the embeddings -/

/-- Longest leading run of decimal digits of a character list, together
with the remainder (models the digit-consuming loop of strtod-style
number scanning used by sscanf percent-lf and the statsd value field). -/
def takeDigits : List Char → List Char × List Char
  | [] => ([], [])
  | c :: r =>
    if c.isDigit then
      let p := takeDigits r
      (c :: p.1, p.2)
    else ([], c :: r)

/-- Value of a digit string read in base 10, most significant digit first. -/
def digitsVal (ds : List Char) : Nat :=
  ds.foldl (fun a c => 10 * a + (c.toNat - 48)) 0

/-- Optional leading sign of a number token. -/
def splitSign : List Char → Bool × List Char
  | [] => (false, [])
  | c :: r => if c = '-' then (true, r) else if c = '+' then (false, r) else (false, c :: r)

/-- After the integer digits: an optional fraction introduced by a dot. -/
def splitDot : List Char → List Char × List Char
  | [] => ([], [])
  | c :: r => if c = '.' then takeDigits r else ([], c :: r)

/-- Decimal-number scanner modelling the C library conversion used both by
sscanf with percent-lf (proc_uptime.c) and by the statsd value and
sample-rate fields: optional sign, integer digits, optional fraction after
a dot.  Returns the exact value and the unconsumed remainder, or none when
no digit was found. -/
def parseDouble (s : List Char) : Option (ℚ × List Char) :=
  let sgn := splitSign s
  let ipp := takeDigits sgn.2
  let fpp := splitDot ipp.2
  if ipp.1.isEmpty ∧ fpp.1.isEmpty then none
  else
    let mag : ℚ := (digitsVal ipp.1 : ℚ) + (digitsVal fpp.1 : ℚ) / (10 : ℚ) ^ fpp.1.length
    some (if sgn.1 then -mag else mag, fpp.2)

/-- Whitespace class skipped by sscanf between conversions. -/
def isSpaceChar (c : Char) : Bool :=
  c = ' ' || c = '\t' || c = '\n'

/-- Skip leading whitespace, as sscanf does before a percent-lf conversion. -/
def skipWs : List Char → List Char
  | [] => []
  | c :: r => if isSpaceChar c then skipWs r else c :: r

/-! ## proc_uptime.c: refresh_proc_uptime -/

/-- MAXPATHLEN, the size of the on-stack buffer in refresh_proc_uptime
(4096 on Linux). -/
def MAXPATHLEN : Nat := 4096

/-- The output struct proc_uptime_t of refresh_proc_uptime; the two
double fields filled by the sscanf of /proc/uptime. -/
structure proc_uptime_t where
  uptime : ℚ
  idletime : ℚ

deriving instance DecidableEq, Repr for proc_uptime_t

/-- Observable state of the /proc/uptime file for one refresh call:
the open fails with an OS errno, the read fails with an OS errno, or the
file delivers a byte content. -/
inductive FileState where
  | missing (errno : Nat)
  | readError (errno : Nat)
  | content (s : List Char)

deriving instance DecidableEq, Repr for FileState

/-- Index used for the terminating NUL store buf[n] = 0 in
refresh_proc_uptime: the byte count n returned by read, decremented once
when positive (which discards the final byte read). -/
def termIndex (n : Nat) : Nat :=
  if 0 < n then n - 1 else n

/-- The sscanf(buf, "%lf %lf", ...) call of refresh_proc_uptime over a
struct zeroed by the preceding memset: fields that fail to convert stay 0,
and the (ignored) conversion count is not modelled because the C code
discards it. -/
def sscanf_two_lf (s : List Char) : ℚ × ℚ :=
  match parseDouble (skipWs s) with
  | none => (0, 0)
  | some (v1, rest) =>
    match parseDouble (skipWs rest) with
    | none => (v1, 0)
    | some (v2, _) => (v1, v2)

/-- Shallow embedding of refresh_proc_uptime (proc_uptime.c lines 19-40):
memset the struct to zero; on open failure return -oserror(); perform the
single read (at most sizeof(buf) = MAXPATHLEN bytes); on read failure
return -oserror(); otherwise decrement a positive byte count, NUL-terminate
there (truncating the content to its first termIndex n bytes), sscanf the
two doubles and return 0. -/
def refresh_proc_uptime (fs : FileState) : Int × proc_uptime_t :=
  let zeroed : proc_uptime_t := ⟨0, 0⟩
  match fs with
  | .missing e => (-(e : Int), zeroed)
  | .readError e => (-(e : Int), zeroed)
  | .content s =>
    let bytes := s.take MAXPATHLEN
    let n := bytes.length
    let buf := bytes.take (termIndex n)
    let v := sscanf_two_lf buf
    (0, ⟨v.1, v.2⟩)

/-! ## cluster.h: socket-statistics cluster enumeration -/

/-- CLUSTER_GLOBAL from cluster.h: global stats cluster, first enumerator. -/
def CLUSTER_GLOBAL : Nat := 0

/-- CLUSTER_SS from cluster.h: per-socket stats cluster. -/
def CLUSTER_SS : Nat := 1

/-- NUM_CLUSTERS from cluster.h: the unvalued trailing enumerator, one past
CLUSTER_SS by C enumeration rules. -/
def NUM_CLUSTERS : Nat := CLUSTER_SS + 1

/-! ## Number-token lemmas for the sscanf model -/

/-- A decimal number token in the fixed two-number uptime format: optional
minus sign, a nonempty integer digit run, an optional fractional digit run
(rendered after a dot when nonempty). -/
structure DecTok where
  neg : Bool
  ip : List Char
  fp : List Char

/-- Wellformedness of a number token: nonempty integer part, digits only. -/
def DecTok.wf (t : DecTok) : Prop :=
  t.ip ≠ [] ∧ (∀ c ∈ t.ip, c.isDigit = true) ∧ (∀ c ∈ t.fp, c.isDigit = true)

instance (t : DecTok) : Decidable t.wf := by
  unfold DecTok.wf
  infer_instance

/-- The character rendering of a number token. -/
def DecTok.chars (t : DecTok) : List Char :=
  (if t.neg then ['-'] else []) ++ t.ip ++ (if t.fp = [] then [] else '.' :: t.fp)

/-- The exact rational value of a number token, mirroring the expression
parseDouble computes. -/
def DecTok.val (t : DecTok) : ℚ :=
  let mag : ℚ := (digitsVal t.ip : ℚ) + (digitsVal t.fp : ℚ) / (10 : ℚ) ^ t.fp.length
  if t.neg then -mag else mag

/-- True when the list does not start with a digit. -/
def noDigitHead : List Char → Bool
  | [] => true
  | c :: _ => !c.isDigit

/-- True when the list does not start with a dot. -/
def noDotHead : List Char → Bool
  | [] => true
  | c :: _ => !(c = '.')

/-- True when the list does not start with sscanf whitespace. -/
def noWsHead : List Char → Bool
  | [] => true
  | c :: _ => !isSpaceChar c

theorem takeDigits_append (ds rest : List Char) (h : ∀ c ∈ ds, c.isDigit = true)
    (h2 : noDigitHead rest = true) : takeDigits (ds ++ rest) = (ds, rest) := by
  induction ds with
  | nil =>
    cases rest with
    | nil => rfl
    | cons c r =>
      simp only [noDigitHead, Bool.not_eq_true'] at h2
      simp [takeDigits, h2]
  | cons d ds ih =>
    have hd : d.isDigit = true := h d (by simp)
    have ih2 := ih (fun c hc => h c (by simp [hc]))
    simp [takeDigits, hd, ih2]

theorem skipWs_of_noWsHead (s : List Char) (h : noWsHead s = true) : skipWs s = s := by
  cases s with
  | nil => rfl
  | cons c r =>
    simp only [noWsHead, Bool.not_eq_true'] at h
    simp [skipWs, h]

theorem isSpaceChar_eq_false_of_isDigit (c : Char) (h : c.isDigit = true) :
    isSpaceChar c = false := by
  by_contra hc
  have h1 : isSpaceChar c = true := by
    cases hx : isSpaceChar c
    · exact absurd hx hc
    · rfl
  unfold isSpaceChar at h1
  simp only [Bool.or_eq_true, decide_eq_true_eq] at h1
  have hv : c = ' ' ∨ c = '\t' ∨ c = '\n' := by tauto
  rcases hv with h2 | h2 | h2 <;> subst h2 <;> revert h <;> decide

theorem ne_of_isDigit (c x : Char) (h : c.isDigit = true) (hx : x.isDigit = false) :
    c ≠ x := by
  intro he
  subst he
  rw [h] at hx
  exact Bool.noConfusion hx

theorem parseDouble_tok (t : DecTok) (rest : List Char) (hwf : t.wf)
    (hnd : noDigitHead rest = true) (hdot : t.fp = [] → noDotHead rest = true) :
    parseDouble (t.chars ++ rest) = some (t.val, rest) := by
  obtain ⟨neg, ip, fp⟩ := t
  obtain ⟨hip, hipd, hfpd⟩ := hwf
  have hip' : ip ≠ [] := hip
  have hipd' : ∀ c ∈ ip, c.isDigit = true := hipd
  have hfpd' : ∀ c ∈ fp, c.isDigit = true := hfpd
  have hipe : ip.isEmpty = false := by
    cases hi : ip with
    | nil => exact absurd hi hip'
    | cons a b => rfl
  have hsplit : ∀ tail : List Char,
      splitSign ((if neg then ['-'] else []) ++ (ip ++ tail)) = (neg, ip ++ tail) := by
    intro tail
    cases neg with
    | true => simp [splitSign]
    | false =>
      cases hi : ip with
      | nil => exact absurd hi hip'
      | cons c0 ipr =>
        have hc0 : c0.isDigit = true := hipd' c0 (by simp [hi])
        have hm : c0 ≠ '-' := ne_of_isDigit c0 '-' hc0 (by decide)
        have hp : c0 ≠ '+' := ne_of_isDigit c0 '+' hc0 (by decide)
        simp [splitSign, hm, hp]
  cases fp with
  | nil =>
    have hd := hdot rfl
    have hdig : takeDigits (ip ++ rest) = (ip, rest) := takeDigits_append ip rest hipd' hnd
    have hsd : splitDot rest = ([], rest) := by
      cases rest with
      | nil => rfl
      | cons c r =>
        have hcd : ¬ (c = '.') := by
          simp only [noDotHead, Bool.not_eq_true', decide_eq_false_iff_not] at hd
          exact hd
        simp [splitDot, hcd]
    have key : parseDouble ((if neg then ['-'] else []) ++ (ip ++ rest)) =
        some (DecTok.val ⟨neg, ip, []⟩, rest) := by
      simp only [parseDouble, hsplit rest, hdig, hsd, hipe]
      simp [DecTok.val]
    have harg : DecTok.chars ⟨neg, ip, []⟩ ++ rest =
        (if neg then ['-'] else []) ++ (ip ++ rest) := by
      simp [DecTok.chars]
    rw [harg, key]
  | cons a b =>
    have hdig : takeDigits (ip ++ ('.' :: a :: (b ++ rest))) =
        (ip, '.' :: a :: (b ++ rest)) := by
      apply takeDigits_append ip _ hipd'
      rfl
    have hsd : splitDot ('.' :: a :: (b ++ rest)) = (a :: b, rest) := by
      have hx : takeDigits (a :: (b ++ rest)) = (a :: b, rest) :=
        takeDigits_append (a :: b) rest hfpd' hnd
      simp [splitDot, hx]
    have key : parseDouble ((if neg then ['-'] else []) ++ (ip ++ ('.' :: a :: (b ++ rest)))) =
        some (DecTok.val ⟨neg, ip, a :: b⟩, rest) := by
      simp only [parseDouble, hsplit ('.' :: a :: (b ++ rest)), hdig, hsd, hipe]
      simp [DecTok.val]
    have harg : DecTok.chars ⟨neg, ip, a :: b⟩ ++ rest =
        (if neg then ['-'] else []) ++ (ip ++ ('.' :: a :: (b ++ rest))) := by
      simp [DecTok.chars]
    rw [harg, key]

/-! ## Theorems about refresh_proc_uptime (claims on proc_uptime.c) -/

theorem noWsHead_chars (t : DecTok) (hwf : t.wf) : noWsHead t.chars = true := by
  obtain ⟨neg, ip, fp⟩ := t
  obtain ⟨hip, hipd, _⟩ := hwf
  cases neg with
  | true => rfl
  | false =>
    cases hi : ip with
    | nil => exact absurd hi hip
    | cons c0 ipr =>
      have hc0 : c0.isDigit = true := hipd c0 (by simp [hi])
      simp [DecTok.chars, hi, noWsHead, isSpaceChar_eq_false_of_isDigit c0 hc0]

theorem sscanf_two_lf_toks (t1 t2 : DecTok) (h1 : t1.wf) (h2 : t2.wf) :
    sscanf_two_lf (t1.chars ++ ' ' :: t2.chars) = (t1.val, t2.val) := by
  have hw1 : noWsHead (t1.chars ++ ' ' :: t2.chars) = true := by
    have := noWsHead_chars t1 h1
    cases hc : t1.chars with
    | nil =>
      exfalso
      obtain ⟨hip, hipd, _⟩ := h1
      have : t1.chars ≠ [] := by
        unfold DecTok.chars
        cases hi : t1.ip with
        | nil => exact absurd hi hip
        | cons a b => simp
      exact this hc
    | cons c r =>
      rw [hc] at this
      simpa [noWsHead] using this
  have hp1 : parseDouble (t1.chars ++ ' ' :: t2.chars) = some (t1.val, ' ' :: t2.chars) :=
    parseDouble_tok t1 (' ' :: t2.chars) h1 rfl (fun _ => rfl)
  have hws2 : skipWs (' ' :: t2.chars) = t2.chars := by
    have hstep : skipWs (' ' :: t2.chars) = skipWs t2.chars := by
      simp [skipWs, isSpaceChar]
    rw [hstep]
    exact skipWs_of_noWsHead _ (noWsHead_chars t2 h2)
  have hp2 : parseDouble t2.chars = some (t2.val, []) := by
    have hx := parseDouble_tok t2 [] h2 rfl (fun _ => rfl)
    rwa [List.append_nil] at hx
  unfold sscanf_two_lf
  rw [skipWs_of_noWsHead _ hw1]
  simp only [hp1, hws2, hp2]

theorem refresh_content_eq (s : List Char) (h : s.length ≤ MAXPATHLEN) :
    refresh_proc_uptime (.content s) =
      (0, ⟨(sscanf_two_lf (s.take (termIndex s.length))).1,
           (sscanf_two_lf (s.take (termIndex s.length))).2⟩) := by
  simp only [refresh_proc_uptime, List.take_of_length_le h]

/-- C2: for every file content consisting of two decimal numbers in the
fixed two-number text format "A B\n" that fits the read buffer, the single
read of refresh_proc_uptime succeeds, the first number is stored in
uptime, the second in idletime, and the function returns 0. -/
theorem refresh_proc_uptime_parses_two_numbers (t1 t2 : DecTok)
    (h1 : t1.wf) (h2 : t2.wf)
    (hlen : (t1.chars ++ ' ' :: (t2.chars ++ ['\n'])).length ≤ MAXPATHLEN) :
    refresh_proc_uptime (.content (t1.chars ++ ' ' :: (t2.chars ++ ['\n']))) =
      (0, ⟨t1.val, t2.val⟩) := by
  have key := refresh_content_eq _ hlen
  have hA : t1.chars ++ ' ' :: (t2.chars ++ ['\n']) =
      (t1.chars ++ ' ' :: t2.chars) ++ ['\n'] := by simp
  rw [hA] at key ⊢
  have hti : termIndex ((t1.chars ++ ' ' :: t2.chars) ++ ['\n']).length =
      (t1.chars ++ ' ' :: t2.chars).length := by
    simp [termIndex]
  rw [hti, List.take_left] at key
  rw [key, sscanf_two_lf_toks t1 t2 h1 h2]

theorem refresh_proc_uptime_parses_two_numbers_witness :
    (DecTok.wf ⟨false, ['3', '5', '0', '7'], ['8', '9']⟩) ∧
    (DecTok.wf ⟨false, ['1', '2'], ['0', '4']⟩) ∧
    ((DecTok.chars ⟨false, ['3', '5', '0', '7'], ['8', '9']⟩ ++ ' ' ::
      (DecTok.chars ⟨false, ['1', '2'], ['0', '4']⟩ ++ ['\n'])).length ≤ MAXPATHLEN) ∧
    refresh_proc_uptime (.content (DecTok.chars ⟨false, ['3', '5', '0', '7'], ['8', '9']⟩ ++
        ' ' :: (DecTok.chars ⟨false, ['1', '2'], ['0', '4']⟩ ++ ['\n']))) =
      (0, ⟨DecTok.val ⟨false, ['3', '5', '0', '7'], ['8', '9']⟩,
           DecTok.val ⟨false, ['1', '2'], ['0', '4']⟩⟩) :=
  ⟨by decide, by decide, by decide,
    refresh_proc_uptime_parses_two_numbers _ _ (by decide) (by decide) (by decide)⟩

/-- C7: when the uptime file cannot be opened or read, refresh_proc_uptime
returns the negated OS error code, a single negative result for that
refresh cycle. -/
theorem refresh_proc_uptime_error_negative (e : Nat) (h : 0 < e) :
    (refresh_proc_uptime (.missing e)).1 = -(e : Int) ∧
    (refresh_proc_uptime (.readError e)).1 = -(e : Int) ∧
    (refresh_proc_uptime (.missing e)).1 < 0 ∧
    (refresh_proc_uptime (.readError e)).1 < 0 := by
  refine ⟨rfl, rfl, ?_, ?_⟩ <;>
  · show -(e : Int) < 0
    omega

theorem refresh_proc_uptime_error_negative_witness :
    0 < 2 ∧
    ((refresh_proc_uptime (.missing 2)).1 = -((2 : Nat) : Int) ∧
     (refresh_proc_uptime (.readError 2)).1 = -((2 : Nat) : Int) ∧
     (refresh_proc_uptime (.missing 2)).1 < 0 ∧
     (refresh_proc_uptime (.readError 2)).1 < 0) :=
  ⟨by decide, refresh_proc_uptime_error_negative 2 (by decide)⟩

/-- C8: refresh_proc_uptime zeroes the output struct before any I/O, so
both error returns hand the caller uptime = 0 and idletime = 0, never a
stale value. -/
theorem refresh_proc_uptime_error_zeroed (e : Nat) :
    refresh_proc_uptime (.missing e) = (-(e : Int), ⟨0, 0⟩) ∧
    refresh_proc_uptime (.readError e) = (-(e : Int), ⟨0, 0⟩) :=
  ⟨rfl, rfl⟩

/-- C9: for every byte count n a successful read can return
(0 ≤ n ≤ MAXPATHLEN), the NUL-store index termIndex n is strictly within
the MAXPATHLEN-byte buffer, and the adjustment discards the final byte
read whenever n is positive. -/
theorem termIndex_within_bounds (n : Nat) (h : n ≤ MAXPATHLEN) :
    termIndex n < MAXPATHLEN ∧ (0 < n → termIndex n = n - 1) := by
  unfold termIndex MAXPATHLEN at *
  constructor
  · split <;> omega
  · intro hp
    rw [if_pos hp]

theorem termIndex_within_bounds_witness :
    4096 ≤ MAXPATHLEN ∧
    (termIndex 4096 < MAXPATHLEN ∧ (0 < 4096 → termIndex 4096 = 4096 - 1)) :=
  ⟨by decide, termIndex_within_bounds 4096 (by decide)⟩

/-- C1 counterexample: content that is not two parseable numbers makes
refresh_proc_uptime return 0 — the very value returned for well-formed
content — so malformed content produces no failure signal at all, let
alone one distinct from the missing or unreadable case. -/
theorem refresh_malformed_no_distinct_signal :
    (refresh_proc_uptime (.content ("not numbers".toList))).1 = 0 ∧
    (refresh_proc_uptime (.content ("123.45 678.90\n".toList))).1 = 0 ∧
    refresh_proc_uptime (.content ("not numbers".toList)) = (0, ⟨0, 0⟩) :=
  ⟨rfl, rfl, by decide⟩

/-- C1 amended: refresh_proc_uptime signals a missing or unreadable file
with a negative return value, but content that fails to parse is not
signalled: the content case always returns 0, with the struct holding the
zeros left by the initial memset when nothing was converted. -/
theorem refresh_failure_signalling (e : Nat) (c : List Char) (h : 0 < e) :
    (refresh_proc_uptime (.missing e)).1 < 0 ∧
    (refresh_proc_uptime (.readError e)).1 < 0 ∧
    (refresh_proc_uptime (.content c)).1 = 0 ∧
    (sscanf_two_lf ((c.take MAXPATHLEN).take (termIndex (c.take MAXPATHLEN).length)) =
        (0, 0) →
      refresh_proc_uptime (.content c) = (0, ⟨0, 0⟩)) := by
  refine ⟨?_, ?_, rfl, ?_⟩
  · show -(e : Int) < 0
    omega
  · show -(e : Int) < 0
    omega
  · intro hs
    simp only [refresh_proc_uptime, hs]

theorem refresh_failure_signalling_witness :
    0 < 2 ∧
    ((refresh_proc_uptime (.missing 2)).1 < 0 ∧
     (refresh_proc_uptime (.readError 2)).1 < 0 ∧
     (refresh_proc_uptime (.content ("bad".toList))).1 = 0 ∧
     (sscanf_two_lf ((("bad".toList).take MAXPATHLEN).take
          (termIndex (("bad".toList).take MAXPATHLEN).length)) = (0, 0) →
       refresh_proc_uptime (.content ("bad".toList)) = (0, ⟨0, 0⟩))) :=
  ⟨by decide, refresh_failure_signalling 2 ("bad".toList) (by decide)⟩

/-! ## Theorems about the cluster enumeration (cluster.h) -/

/-- C10: the cluster identifiers are distinct and consecutive from 0
(CLUSTER_GLOBAL = 0, CLUSTER_SS = 1), NUM_CLUSTERS = 2 is one greater than
the largest identifier, and every valid cluster identifier is below
NUM_CLUSTERS. -/
theorem cluster_ids_consecutive (id : Nat)
    (h : id = CLUSTER_GLOBAL ∨ id = CLUSTER_SS) :
    CLUSTER_GLOBAL = 0 ∧ CLUSTER_SS = 1 ∧ CLUSTER_SS = CLUSTER_GLOBAL + 1 ∧
    CLUSTER_GLOBAL ≠ CLUSTER_SS ∧ NUM_CLUSTERS = 2 ∧
    NUM_CLUSTERS = CLUSTER_SS + 1 ∧ id < NUM_CLUSTERS := by
  rcases h with h | h <;> subst h <;> decide

theorem cluster_ids_consecutive_witness :
    (1 = CLUSTER_GLOBAL ∨ 1 = CLUSTER_SS) ∧
    (CLUSTER_GLOBAL = 0 ∧ CLUSTER_SS = 1 ∧ CLUSTER_SS = CLUSTER_GLOBAL + 1 ∧
     CLUSTER_GLOBAL ≠ CLUSTER_SS ∧ NUM_CLUSTERS = 2 ∧
     NUM_CLUSTERS = CLUSTER_SS + 1 ∧ 1 < NUM_CLUSTERS) :=
  ⟨by decide, cluster_ids_consecutive 1 (by decide)⟩

/-! ## statsd datagram parser (parser-basic.h)

The sampled sources contain only the declaration of basic_parser_parse:
an int return that is 1 on success and 0 on fail, with the parsed datagram
delivered through an out parameter.  The parsing logic itself
(parser-basic.c, and the grammar-driven sibling strategy) is not among the
sampled sources, so it is modelled from the line-protocol grammar,
failure taxonomy and strategy-equivalence requirements of the spec. -/

/-- Everything before the first occurrence of the delimiter, plus the
remainder after it when the delimiter occurs at all. -/
def breakAt (c : Char) : List Char → List Char × Option (List Char)
  | [] => ([], none)
  | x :: r =>
    if x = c then ([], some r)
    else
      let p := breakAt c r
      (x :: p.1, p.2)

/-- Split at every occurrence of the delimiter (n delimiters yield n+1
segments). -/
def splitOnChar (c : Char) : List Char → List (List Char)
  | [] => [[]]
  | x :: r =>
    if x = c then [] :: splitOnChar c r
    else
      match splitOnChar c r with
      | [] => [[x]]
      | a :: t => (x :: a) :: t

/-- Modelled from the spec: the parse-failure taxonomy of the error
handling design (parser-basic.c is not among the sampled sources). -/
inductive ParseError where
  | TooLarge
  | UnknownType
  | InvalidSampleRate
  | MalformedValue
  | MalformedName

deriving instance DecidableEq, Repr for ParseError

/-- The four metric kinds of the statsd line protocol. -/
inductive MetricType where
  | counter
  | gauge
  | timer
  | set

deriving instance DecidableEq, Repr for MetricType

/-- Modelled from the spec: the structured datagram for one metric
statement (the struct statsd_datagram out parameter of parser-basic.h,
whose definition is not among the sampled sources): name, type, value,
sample rate defaulting to 1, ordered tag pairs. -/
structure statsd_datagram where
  name : List Char
  type : MetricType
  value : ℚ
  sampleRate : ℚ
  tags : List (List Char × List Char)

deriving instance DecidableEq, Repr for statsd_datagram

/-- Modelled from the spec: the reserved protocol delimiters a metric
name must not contain. -/
def reservedDelim (c : Char) : Bool :=
  c = ':' || c = '|' || c = '@' || c = '#' || c = '\n'

/-- Modelled from the spec: a valid metric name is nonempty and free of
reserved delimiters. -/
def validName (name : List Char) : Bool :=
  !name.isEmpty && name.all (fun c => !reservedDelim c)

/-- Modelled from the spec: the type token maps c, g, ms, h, s to the
four metric kinds; any other token is unknown. -/
def typeOf : List Char → Option MetricType
  | ['c'] => some .counter
  | ['g'] => some .gauge
  | ['m', 's'] => some .timer
  | ['h'] => some .timer
  | ['s'] => some .set
  | _ => none

/-- Modelled from the spec: the sample-rate token after the at sign must
be a number in (0, 1]. -/
def parseRateTok (r : List Char) : Except ParseError ℚ :=
  match parseDouble r with
  | some (v, []) => if 0 < v ∧ v ≤ 1 then .ok v else .error .InvalidSampleRate
  | _ => .error .InvalidSampleRate

/-- One tag: key before the first colon, value after it. -/
def parseTag (s : List Char) : List Char × List Char :=
  match breakAt ':' s with
  | (k, some v) => (k, v)
  | (k, none) => (k, [])

/-- Modelled from the spec: the tag field holds comma-separated key:value
pairs; tags are accepted liberally because the documented failure taxonomy
has no tag-specific kind. -/
def parseTags (s : List Char) : List (List Char × List Char) :=
  (splitOnChar ',' s).map parseTag

/-- Modelled from the spec: option handling of the hand-rolled scanner.
After the type token the scanner may consume one at-rate field and then
one hash-tag field, scanning the remaining characters left to right. -/
def basic_options : Option (List Char) → Except ParseError (ℚ × List (List Char × List Char))
  | none => .ok (1, [])
  | some [] => .error .UnknownType
  | some (c :: r) =>
    if c = '@' then
      let p := breakAt '|' r
      match parseRateTok p.1 with
      | .error e => .error e
      | .ok rate =>
        match p.2 with
        | none => .ok (rate, [])
        | some [] => .error .UnknownType
        | some (c2 :: t) =>
          if c2 = '#' then
            let q := breakAt '|' t
            match q.2 with
            | none => .ok (rate, parseTags q.1)
            | some _ => .error .UnknownType
          else .error .UnknownType
    else if c = '#' then
      let q := breakAt '|' r
      match q.2 with
      | none => .ok (1, parseTags q.1)
      | some _ => .error .UnknownType
    else .error .UnknownType

/-- Modelled from the spec: option handling of the grammar-driven
strategy over the already-split field list: an optional at-rate field
followed by an optional hash-tag field, nothing after them. -/
def ragel_options : List (List Char) → Except ParseError (ℚ × List (List Char × List Char))
  | [] => .ok (1, [])
  | [] :: _ => .error .UnknownType
  | (c :: r) :: rest =>
    if c = '@' then
      match parseRateTok r with
      | .error e => .error e
      | .ok rate =>
        match rest with
        | [] => .ok (rate, [])
        | [] :: _ => .error .UnknownType
        | (c2 :: t) :: rest2 =>
          if c2 = '#' then
            match rest2 with
            | [] => .ok (rate, parseTags t)
            | _ :: _ => .error .UnknownType
          else .error .UnknownType
    else if c = '#' then
      match rest with
      | [] => .ok (1, parseTags r)
      | _ :: _ => .error .UnknownType
    else .error .UnknownType

/-- Modelled from the spec: the hand-rolled basic scanner for one metric
statement of the form name:value|type with optional rate and tag fields,
scanning left to right for each delimiter. -/
def basic_parser_parse_line (line : List Char) : Except ParseError statsd_datagram :=
  let pn := breakAt ':' line
  match pn.2 with
  | none => .error .MalformedName
  | some rest1 =>
    if validName pn.1 then
      let pv := breakAt '|' rest1
      match parseDouble pv.1 with
      | some (v, []) =>
        match pv.2 with
        | none => .error .UnknownType
        | some rest2 =>
          let pt := breakAt '|' rest2
          match typeOf pt.1 with
          | none => .error .UnknownType
          | some ty =>
            match basic_options pt.2 with
            | .error e => .error e
            | .ok rt => .ok ⟨pn.1, ty, v, rt.1, rt.2⟩
      | _ => .error .MalformedValue
    else .error .MalformedName

/-- Modelled from the spec: the grammar-driven parser strategy for one
metric statement; the statement is first split into its bar-separated
fields and the field list is then interpreted against the grammar. -/
def ragel_parser_parse_line (line : List Char) : Except ParseError statsd_datagram :=
  match splitOnChar '|' line with
  | [] => .error .MalformedName
  | nv :: fields =>
    let pn := breakAt ':' nv
    match pn.2 with
    | none => .error .MalformedName
    | some valueCs =>
      if validName pn.1 then
        match parseDouble valueCs with
        | some (v, []) =>
          match fields with
          | [] => .error .UnknownType
          | ty :: opts =>
            match typeOf ty with
            | none => .error .UnknownType
            | some t =>
              match ragel_options opts with
              | .error e => .error e
              | .ok rt => .ok ⟨pn.1, t, v, rt.1, rt.2⟩
        | _ => .error .MalformedValue
      else .error .MalformedName

/-- Modelled from the spec: one parse call over a whole buffer: a buffer
beyond the configured maximum datagram size is rejected as TooLarge
without parsing; otherwise the newline-separated statements are parsed
independently (empty segments, as left by a trailing newline, are
skipped), each yielding its own success or failure. -/
def basic_parser_parse (maxSize : Nat) (buffer : List Char) :
    Except ParseError (List (Except ParseError statsd_datagram)) :=
  if buffer.length > maxSize then .error .TooLarge
  else
    .ok (((splitOnChar '\n' buffer).filter (fun l => !l.isEmpty)).map basic_parser_parse_line)

/-- Modelled from the spec: the grammar-driven strategy over a whole
buffer, with the same size guard and statement splitting. -/
def ragel_parser_parse (maxSize : Nat) (buffer : List Char) :
    Except ParseError (List (Except ParseError statsd_datagram)) :=
  if buffer.length > maxSize then .error .TooLarge
  else
    .ok (((splitOnChar '\n' buffer).filter (fun l => !l.isEmpty)).map ragel_parser_parse_line)

/-- The caller-visible interface fixed by parser-basic.h: an int that is
1 on success and 0 on fail, with the datagram populated only on success.
The failure kind is not part of this result. -/
def basic_parser_parse_c (buffer : List Char) : Nat × Option statsd_datagram :=
  match basic_parser_parse_line buffer with
  | .ok d => (1, some d)
  | .error _ => (0, none)

/-- Newline-joined statements, the packing format of multi-metric
datagrams. -/
def joinLines : List (List Char) → List Char
  | [] => []
  | [l] => l
  | l :: ls => l ++ '\n' :: joinLines ls

/-! ## Lemmas relating the two scanning disciplines -/

theorem breakAt_cons_ne (c x : Char) (r : List Char) (h : ¬ x = c) :
    breakAt c (x :: r) = (x :: (breakAt c r).1, (breakAt c r).2) := by
  simp [breakAt, h]

theorem breakAt_none_iff (c : Char) (s : List Char) :
    (breakAt c s).2 = none ↔ c ∉ s := by
  induction s with
  | nil => simp [breakAt]
  | cons x r ih =>
    by_cases hx : x = c
    · subst hx
      simp [breakAt]
    · have hx' : ¬ (c = x) := fun h => hx h.symm
      rw [breakAt_cons_ne c x r hx]
      simp [ih, hx']

theorem breakAt_fst_of_none (c : Char) (s : List Char) (h : (breakAt c s).2 = none) :
    (breakAt c s).1 = s := by
  induction s with
  | nil => rfl
  | cons x r ih =>
    by_cases hx : x = c
    · subst hx
      simp [breakAt] at h
    · rw [breakAt_cons_ne c x r hx] at h ⊢
      simp only at h ⊢
      rw [ih h]

theorem breakAt_fst_not_mem (c : Char) (s : List Char) : c ∉ (breakAt c s).1 := by
  induction s with
  | nil => simp [breakAt]
  | cons x r ih =>
    by_cases hx : x = c
    · subst hx
      simp [breakAt]
    · rw [breakAt_cons_ne c x r hx]
      simp only [List.mem_cons]
      rintro (h | h)
      · exact hx h.symm
      · exact ih h

theorem breakAt_eq_append (c : Char) (s p r : List Char) (h : breakAt c s = (p, some r)) :
    s = p ++ c :: r := by
  induction s generalizing p with
  | nil => simp [breakAt] at h
  | cons x t ih =>
    by_cases hx : x = c
    · subst hx
      simp only [breakAt, if_pos rfl, if_true, Prod.mk.injEq, Option.some.injEq] at h
      obtain ⟨h1, h2⟩ := h
      subst h2
      rw [← h1]
      rfl
    · rw [breakAt_cons_ne c x t hx] at h
      cases hbt : breakAt c t with
      | mk q o =>
        rw [hbt] at h
        simp only [Prod.mk.injEq] at h
        obtain ⟨h1, h2⟩ := h
        subst h1
        have ht : t = q ++ c :: r := ih q (by rw [hbt, h2])
        rw [ht]
        rfl

theorem breakAt_not_mem (c : Char) (s : List Char) (h : c ∉ s) : breakAt c s = (s, none) := by
  induction s with
  | nil => rfl
  | cons x r ih =>
    have hx : ¬ x = c := fun he => h (by rw [he]; exact List.mem_cons_self _ _)
    have hr : c ∉ r := fun hm => h (List.mem_cons_of_mem x hm)
    rw [breakAt_cons_ne c x r hx, ih hr]

theorem breakAt_append_of_not_mem (c : Char) (a x : List Char) (h : c ∉ a) :
    breakAt c (a ++ x) = (a ++ (breakAt c x).1, (breakAt c x).2) := by
  induction a with
  | nil => simp
  | cons y t ih =>
    have hy : ¬ y = c := fun he => h (by rw [he]; exact List.mem_cons_self _ _)
    have ht : c ∉ t := fun hm => h (List.mem_cons_of_mem y hm)
    simp only [List.cons_append]
    rw [breakAt_cons_ne c y _ hy, ih ht]

theorem breakAt_append_of_some (c : Char) (a p r x : List Char)
    (h : breakAt c a = (p, some r)) :
    breakAt c (a ++ x) = (p, some (r ++ x)) := by
  induction a generalizing p with
  | nil => simp [breakAt] at h
  | cons y t ih =>
    by_cases hy : y = c
    · subst hy
      simp only [breakAt, if_pos rfl, if_true, Prod.mk.injEq, Option.some.injEq] at h
      obtain ⟨h1, h2⟩ := h
      subst h2
      rw [← h1]
      simp [breakAt]
    · rw [breakAt_cons_ne c y t hy] at h
      cases hbt : breakAt c t with
      | mk q o =>
        rw [hbt] at h
        simp only [Prod.mk.injEq] at h
        obtain ⟨h1, h2⟩ := h
        subst h1
        have hrec := ih q (by rw [hbt, h2])
        simp only [List.cons_append]
        rw [breakAt_cons_ne c y _ hy, hrec]

theorem splitOnChar_breakAt (c : Char) (s : List Char) :
    splitOnChar c s =
      (breakAt c s).1 ::
        (match (breakAt c s).2 with
         | none => []
         | some r => splitOnChar c r) := by
  induction s with
  | nil => rfl
  | cons x r ih =>
    by_cases hx : x = c
    · subst hx
      simp [splitOnChar, breakAt]
    · rw [breakAt_cons_ne c x r hx]
      have h1 : splitOnChar c (x :: r) =
          match splitOnChar c r with
          | [] => [[x]]
          | a :: t => (x :: a) :: t := by
        simp [splitOnChar, hx]
      rw [h1, ih]

theorem splitOnChar_ne_nil (c : Char) (s : List Char) : splitOnChar c s ≠ [] := by
  rw [splitOnChar_breakAt]
  exact List.cons_ne_nil _ _

theorem splitOnChar_not_mem (c : Char) (s : List Char) (h : c ∉ s) :
    splitOnChar c s = [s] := by
  rw [splitOnChar_breakAt, breakAt_not_mem c s h]

theorem validName_eq_false_of_mem (name : List Char) (c : Char) (hc : c ∈ name)
    (hr : reservedDelim c = true) : validName name = false := by
  unfold validName
  have h1 : name.all (fun x => !reservedDelim x) = false := by
    cases hx : name.all (fun x => !reservedDelim x) with
    | false => rfl
    | true =>
      exfalso
      have h2 := (List.all_eq_true.mp hx) c hc
      rw [hr] at h2
      simp at h2
  rw [h1, Bool.and_false]

theorem options_agree (o : Option (List Char)) :
    basic_options o =
      ragel_options (match o with | none => [] | some r => splitOnChar '|' r) := by
  cases o with
  | none => rfl
  | some cs =>
    cases cs with
    | nil => rfl
    | cons c r =>
      show basic_options (some (c :: r)) = ragel_options (splitOnChar '|' (c :: r))
      by_cases hc : c = '|'
      · subst hc
        have h1 : splitOnChar '|' ('|' :: r) = [] :: splitOnChar '|' r := by
          simp [splitOnChar]
        rw [h1]
        simp [basic_options, ragel_options]
      · have hsp : splitOnChar '|' (c :: r) =
            (c :: (breakAt '|' r).1) ::
              (match (breakAt '|' r).2 with
               | none => []
               | some r2 => splitOnChar '|' r2) := by
          rw [splitOnChar_breakAt '|' (c :: r), breakAt_cons_ne '|' c r hc]
        rw [hsp]
        by_cases ha : c = '@'
        · subst ha
          cases hr : parseRateTok (breakAt '|' r).1 with
          | error e => simp [basic_options, ragel_options, hr]
          | ok rate =>
            cases ho : (breakAt '|' r).2 with
            | none => simp [basic_options, ragel_options, hr, ho]
            | some s2 =>
              cases s2 with
              | nil => simp [basic_options, ragel_options, hr, ho, splitOnChar]
              | cons c2 t =>
                by_cases h2 : c2 = '|'
                · subst h2
                  have h3 : splitOnChar '|' ('|' :: t) = [] :: splitOnChar '|' t := by
                    simp [splitOnChar]
                  simp [basic_options, ragel_options, hr, ho, h3]
                · have hsp2 : splitOnChar '|' (c2 :: t) =
                      (c2 :: (breakAt '|' t).1) ::
                        (match (breakAt '|' t).2 with
                         | none => []
                         | some r2 => splitOnChar '|' r2) := by
                    rw [splitOnChar_breakAt '|' (c2 :: t), breakAt_cons_ne '|' c2 t h2]
                  by_cases h3 : c2 = '#'
                  · subst h3
                    cases ho2 : (breakAt '|' t).2 with
                    | none => simp [basic_options, ragel_options, hr, ho, hsp2, ho2]
                    | some r5 =>
                      cases hM2 : splitOnChar '|' r5 with
                      | nil => exact absurd hM2 (splitOnChar_ne_nil '|' r5)
                      | cons m ms =>
                        simp [basic_options, ragel_options, hr, ho, hsp2, ho2, hM2]
                  · simp [basic_options, ragel_options, hr, ho, hsp2, h3]
        · by_cases hh : c = '#'
          · subst hh
            cases ho : (breakAt '|' r).2 with
            | none => simp [basic_options, ragel_options, ho]
            | some r5 =>
              cases hM2 : splitOnChar '|' r5 with
              | nil => exact absurd hM2 (splitOnChar_ne_nil '|' r5)
              | cons m ms => simp [basic_options, ragel_options, ho, hM2]
          · simp [basic_options, ragel_options, ha, hh]

theorem parse_line_agree (line : List Char) :
    basic_parser_parse_line line = ragel_parser_parse_line line := by
  cases hb : breakAt ':' line with
  | mk nm o =>
    cases o with
    | none =>
      have hnc : ':' ∉ line := (breakAt_none_iff ':' line).mp (by rw [hb])
      cases hb2 : breakAt '|' line with
      | mk nv o2 =>
        have hsp := splitOnChar_breakAt '|' line
        rw [hb2] at hsp
        cases o2 with
        | none =>
          have hnv : nv = line := by
            have h := breakAt_fst_of_none '|' line (by rw [hb2])
            rw [hb2] at h
            exact h
          subst hnv
          simp only [basic_parser_parse_line, ragel_parser_parse_line, hb, hsp]
        | some r2 =>
          have hdec : line = nv ++ '|' :: r2 := breakAt_eq_append '|' line nv r2 hb2
          have hnv : ':' ∉ nv := fun hm => hnc (by rw [hdec]; exact List.mem_append_left _ hm)
          have hbn := breakAt_not_mem ':' nv hnv
          simp only [basic_parser_parse_line, ragel_parser_parse_line, hb, hsp, hbn]
    | some rest1 =>
      have hdec1 : line = nm ++ ':' :: rest1 := breakAt_eq_append ':' line nm rest1 hb
      have hnm : ':' ∉ nm := by
        have h := breakAt_fst_not_mem ':' line
        rw [hb] at h
        exact h
      by_cases hbar : '|' ∈ nm
      · have hvn : validName nm = false :=
          validName_eq_false_of_mem nm '|' hbar (by decide)
        cases hbm : breakAt '|' nm with
        | mk nm1 o3 =>
          cases o3 with
          | none =>
            exact absurd hbar ((breakAt_none_iff '|' nm).mp (by rw [hbm]))
          | some r3 =>
            have h4 : breakAt '|' line = (nm1, some (r3 ++ ':' :: rest1)) := by
              rw [hdec1]
              exact breakAt_append_of_some '|' nm nm1 r3 (':' :: rest1) hbm
            have hd3 : nm = nm1 ++ '|' :: r3 := breakAt_eq_append '|' nm nm1 r3 hbm
            have hnm1 : ':' ∉ nm1 := fun hm => hnm (by rw [hd3]; exact List.mem_append_left _ hm)
            have hsp := splitOnChar_breakAt '|' line
            rw [h4] at hsp
            have hbn1 := breakAt_not_mem ':' nm1 hnm1
            simp only [basic_parser_parse_line, ragel_parser_parse_line, hb, hsp, hbn1, hvn]
            simp
      · cases hpv : breakAt '|' rest1 with
        | mk w o4 =>
          have h5 : breakAt '|' line = (nm ++ ':' :: w, o4) := by
            rw [hdec1, breakAt_append_of_not_mem '|' nm (':' :: rest1) hbar,
               breakAt_cons_ne '|' ':' rest1 (by decide), hpv]
          have hnv2 : breakAt ':' (nm ++ ':' :: w) = (nm, some w) := by
            rw [breakAt_append_of_not_mem ':' nm (':' :: w) hnm]
            simp [breakAt]
          have hsp := splitOnChar_breakAt '|' line
          rw [h5] at hsp
          simp only [basic_parser_parse_line, ragel_parser_parse_line, hb, hsp, hnv2, hpv]
          by_cases hvn : validName nm = true
          · simp only [hvn, if_true]
            cases hpd : parseDouble w with
            | none => simp [hpd]
            | some pr =>
              obtain ⟨v, rest'⟩ := pr
              cases rest' with
              | cons a b => simp [hpd]
              | nil =>
                simp only [hpd]
                cases o4 with
                | none => simp
                | some r4 =>
                  cases hpt : breakAt '|' r4 with
                  | mk tyCs o5 =>
                    have hsp2 := splitOnChar_breakAt '|' r4
                    rw [hpt] at hsp2
                    simp only [hsp2, hpt]
                    cases hty : typeOf tyCs with
                    | none => simp [hty]
                    | some ty =>
                      simp only [hty]
                      cases o5 with
                      | none => rfl
                      | some r5 =>
                        have hoa : basic_options (some r5) =
                            ragel_options (splitOnChar '|' r5) :=
                          options_agree (some r5)
                        simp only [hoa]
          · simp only [Bool.not_eq_true] at hvn
            simp [hvn]

theorem splitOnChar_joinLines (lines : List (List Char)) (hne : lines ≠ [])
    (h : ∀ l ∈ lines, '\n' ∉ l) :
    splitOnChar '\n' (joinLines lines) = lines := by
  induction lines with
  | nil => exact absurd rfl hne
  | cons a ls ih =>
    cases ls with
    | nil =>
      show splitOnChar '\n' (joinLines [a]) = [a]
      have hj : joinLines [a] = a := rfl
      rw [hj]
      exact splitOnChar_not_mem '\n' a (h a (by simp))
    | cons b t =>
      have hja : joinLines (a :: b :: t) = a ++ '\n' :: joinLines (b :: t) := rfl
      have hna : '\n' ∉ a := h a (by simp)
      rw [hja, splitOnChar_breakAt,
          breakAt_append_of_not_mem '\n' a ('\n' :: joinLines (b :: t)) hna]
      have hbk : breakAt '\n' ('\n' :: joinLines (b :: t)) =
          ([], some (joinLines (b :: t))) := by
        simp [breakAt]
      rw [hbk]
      simp only [List.append_nil]
      rw [ih (List.cons_ne_nil b t) (fun l hl => h l (List.mem_cons_of_mem a hl))]

/-! ## Theorems about the statsd parser (claims on parser-basic.h) -/

/-- C4: the two conformant parser strategies classify every input buffer
identically: the same datagram list on valid input and the same failure
kind on invalid input. -/
theorem parser_strategies_agree (maxSize : Nat) (buffer : List Char) :
    basic_parser_parse maxSize buffer = ragel_parser_parse maxSize buffer := by
  unfold basic_parser_parse ragel_parser_parse
  have hf : basic_parser_parse_line = ragel_parser_parse_line := funext parse_line_agree
  rw [hf]

/-- C6: parsing "foo:1|c" succeeds with a Counter datagram named foo,
value 1, the sample rate defaulting to 1 with no rate field present, and
no tags; through the C interface this is result 1 with the datagram. -/
theorem parse_foo_counter :
    basic_parser_parse_line ("foo:1|c".toList) =
      .ok ⟨"foo".toList, .counter, 1, 1, []⟩ ∧
    basic_parser_parse_c ("foo:1|c".toList) =
      (1, some ⟨"foo".toList, .counter, 1, 1, []⟩) := by
  have hl : "foo:1|c".toList = ['f', 'o', 'o', ':', '1', '|', 'c'] := rfl
  have hn : "foo".toList = ['f', 'o', 'o'] := rfl
  have h1 : basic_parser_parse_line ("foo:1|c".toList) =
      .ok ⟨"foo".toList, .counter, 1, 1, []⟩ := by
    rw [hl, hn]
    simp +decide [basic_parser_parse_line, breakAt, validName, reservedDelim, parseDouble,
      splitSign, takeDigits, splitDot, digitsVal, typeOf, basic_options]
  exact ⟨h1, by unfold basic_parser_parse_c; rw [h1]⟩

/-- C3 counterexample: two inputs whose spec-classified failure kinds
differ (UnknownType for a bad type token, MalformedValue for a bad value)
produce the identical caller-visible result 0 with no datagram through
the int interface declared in parser-basic.h, so the result returned to
the caller does not identify which failure kind occurred. -/
theorem parse_c_result_untyped :
    basic_parser_parse_line ("foo:1|q".toList) = .error .UnknownType ∧
    basic_parser_parse_line ("foo:abc|c".toList) = .error .MalformedValue ∧
    basic_parser_parse_c ("foo:1|q".toList) = basic_parser_parse_c ("foo:abc|c".toList) ∧
    basic_parser_parse_c ("foo:1|q".toList) = (0, none) := by
  refine ⟨rfl, rfl, rfl, rfl⟩

/-- C3 amended: parse failure is reported as a plain result value, never
as an exception: the C interface returns 1 with the datagram exactly when
line parsing succeeds, and 0 with no datagram exactly when it fails; the
failure kind, classified internally into the five documented kinds, is
not identified by the returned result. -/
theorem parse_failure_is_result_value (buffer : List Char) :
    (∃ d, basic_parser_parse_line buffer = .ok d ∧
      basic_parser_parse_c buffer = (1, some d)) ∨
    (∃ e, basic_parser_parse_line buffer = .error e ∧
      basic_parser_parse_c buffer = (0, none) ∧
      (e = .TooLarge ∨ e = .UnknownType ∨ e = .InvalidSampleRate ∨
       e = .MalformedValue ∨ e = .MalformedName)) := by
  cases h : basic_parser_parse_line buffer with
  | ok d =>
    exact Or.inl ⟨d, rfl, by unfold basic_parser_parse_c; rw [h]⟩
  | error e =>
    refine Or.inr ⟨e, rfl, by unfold basic_parser_parse_c; rw [h], ?_⟩
    cases e <;> simp

/-- C5: one parse call over a buffer packing several newline-separated
statements parses each statement independently, yielding one entry per
statement; a failure in one statement leaves every other statement's
result in place. -/
theorem basic_parser_parse_independent (maxSize : Nat) (lines : List (List Char))
    (h1 : ∀ l ∈ lines, l ≠ [] ∧ '\n' ∉ l)
    (h2 : (joinLines lines).length ≤ maxSize) :
    basic_parser_parse maxSize (joinLines lines) =
      .ok (lines.map basic_parser_parse_line) := by
  unfold basic_parser_parse
  rw [if_neg (by omega)]
  cases lines with
  | nil => rfl
  | cons a t =>
    have hsp := splitOnChar_joinLines (a :: t)
      (List.cons_ne_nil a t) (fun l hm => (h1 l hm).2)
    rw [hsp]
    have hf : (a :: t).filter (fun l => !l.isEmpty) = a :: t := by
      rw [List.filter_eq_self]
      intro l hm
      have hne := (h1 l hm).1
      cases l with
      | nil => exact absurd rfl hne
      | cons x y => rfl
    rw [hf]

theorem basic_parser_parse_independent_witness :
    (∀ l ∈ [("foo:bad|c".toList), ("bar:2|g".toList)], l ≠ [] ∧ '\n' ∉ l) ∧
    (joinLines [("foo:bad|c".toList), ("bar:2|g".toList)]).length ≤ 64 ∧
    basic_parser_parse 64 (joinLines [("foo:bad|c".toList), ("bar:2|g".toList)]) =
      .ok ([("foo:bad|c".toList), ("bar:2|g".toList)].map basic_parser_parse_line) :=
  ⟨by decide, by decide,
    basic_parser_parse_independent 64 _ (by decide) (by decide)⟩
